import Mathlib

/-!
# PylonKVManager — shallow embedding and verification

This file embeds the core of the PylonKVManager repository (the richest
iteration of `KVManager`, the one using compressed data pointers, a
`nextID` counter and multiple header records) as pure Lean functions over
an explicit state, and proves or refutes the frozen specification claims.

Modelling conventions, fixed once and used throughout:

* JS strings are sequences of UTF-16 code units; we model them as
  `List Nat` (`CodeStr`).  User-facing keys are modelled as Lean `String`
  (only equality on them is used by the code).
* The substrate (`pylon.KVNamespace`) maps record names to records.  The
  code only ever uses names of the two shapes `header<i>` and `data<n>`,
  so the state keeps two association lists, one keyed by the header
  number (`Nat`) and one keyed by the data-tag number (`Int`; the code
  manipulates tag numbers as JS numbers, with `-1` as a sentinel).
  JS objects keep insertion order and never duplicate keys; `aupsert`
  mirrors this (update in place, append when new).
* `kv.transact` applies its callback atomically; a callback returning
  `undefined` deletes the record (this is how `deleteKeyTag` removes an
  emptied bucket and then observes `datum == undefined`).
* The per-process read cache is not modelled: every operation verified
  here is invoked without the `cache` flag, and on that path the cache is
  never consulted (`findDataPtr` even hardcodes `cache = false`), so it
  cannot influence any result below.
* Serialization size measurement (`sizeof`, i.e. the byte length of
  `JSON.stringify`) is the external `size_of` collaborator.  The model is
  parametric in the four shapes at which the code applies it; a concrete
  instantiation (`szEntryC` etc.), corresponding to JSON records holding
  plain ASCII string values, is provided for witnesses and concrete runs.
* Asynchronous calls that the source fires without awaiting are applied
  sequentially in program order, which is the behaviour of a run with no
  interleaved operations.
-/

namespace KVM

/-- A JS string as its list of UTF-16 code units. -/
abbrev CodeStr := List Nat

/-! ## Association-list primitives (JS object semantics) -/

/-- Lookup in an association list (first binding wins, as in a JS object,
which cannot hold duplicate keys). -/
def alookup {α β : Type} [DecidableEq α] : List (α × β) → α → Option β
  | [], _ => none
  | (a, b) :: t, k => if a = k then some b else alookup t k

/-- JS object write `obj[k] = v`: replace in place if the key exists,
append otherwise. -/
def aupsert {α β : Type} [DecidableEq α] : List (α × β) → α → β → List (α × β)
  | [], k, v => [(k, v)]
  | (a, b) :: t, k, v => if a = k then (k, v) :: t else (a, b) :: aupsert t k v

/-- JS `delete obj[k]`: remove the binding of `k` (the first one; a JS
object has at most one). -/
def aerase {α β : Type} [DecidableEq α] : List (α × β) → α → List (α × β)
  | [], _ => []
  | (a, b) :: t, k => if a = k then t else (a, b) :: aerase t k

/-! ## Data model (interfaces `KVMHeader`, `KVDataTag`, `DataPtr`) -/

/-- A structured data pointer `{tag, id}`.  `tag` is a JS number (the code
uses `-1` as a not-found sentinel), `id` a string. -/
structure DataPtr where
  tag : Int
  id : CodeStr
deriving DecidableEq, Repr

/-- A header record: `{ blocks, dataptr, nextID }`.  `dataptr` maps a user
key to a compressed pointer string. -/
structure KVMHeader where
  blocks : List Int
  dataptr : List (String × CodeStr)
  nextID : Nat
deriving DecidableEq, Repr

/-- A bucket record (`KVDataTag`): `{ size, data }`. -/
structure KVDataTag (V : Type) where
  size : Nat
  data : List (CodeStr × V)
deriving DecidableEq, Repr

/-- `const newhdr = { blocks: [], dataptr: {}, nextID: 161 }`. -/
def newhdr : KVMHeader := { blocks := [], dataptr := [], nextID := 161 }

/-- `const emptyTag = { size: 0, data: {} }`. -/
def emptyTag {V : Type} : KVDataTag V := { size := 0, data := [] }

/-- `const MAX_TAG_SIZE = 2000`. -/
def MAX_TAG_SIZE : Nat := 2000

/-- The substrate state: the `header<i>` records and the `data<n>`
records of the namespace. -/
structure KVState (V : Type) where
  headers : List (Nat × KVMHeader)
  tags : List (Int × KVDataTag V)
deriving DecidableEq, Repr

/-- The empty namespace. -/
def emptyState {V : Type} : KVState V := { headers := [], tags := [] }

/-! ## Pointer codec (`num2str` / `str2num` / `compressDataPtr` /
`expandDP2`) -/

/-- The loop body of `num2str`, made structurally recursive on a fuel
argument so that concrete evaluation reduces in the kernel; the fuel is
always sufficient because the argument drops by a factor of 65535 each
round. -/
def num2strAux : Nat → Nat → CodeStr
  | 0, n => [n % 65535]
  | f + 1, n => if 0 < n / 65535 then n % 65535 :: num2strAux f (n / 65535) else [n % 65535]

/-- `num2str`: encodes a number in base 65535, least significant code
unit first (`do { ret += chr(n % 65535); n = (n / 65535) >> 0 } while
(n > 0)`). -/
def num2str (n : Nat) : CodeStr := num2strAux n n

/-- `str2num`: the inverse fold, `num = 65535 * num + s.charCodeAt(i)`
from the last unit down to the first. -/
def str2num : CodeStr → Nat
  | [] => 0
  | c :: t => c + 65535 * str2num t

/-- `compressDataPtr(dptr) = num2str(dptr.tag + 161) + dptr.id`.  All call
sites pass `tag ≥ 0`, so the `Int.toNat` coercion is exact there. -/
def compressDataPtr (dp : DataPtr) : CodeStr :=
  num2str (dp.tag + 161).toNat ++ dp.id

/-- `expandDP2(dp2) = { tag: str2num(dp2[0]) - 161, id: dp2.substr(1) }`. -/
def expandDP2 (s : CodeStr) : DataPtr :=
  { tag := (str2num (s.take 1) : Int) - 161, id := s.drop 1 }

/-! ## The smallest-missing-header-slot algorithm (`getNewHeader`,
the closure inside `findEmptyHdr`) -/

/-- One iteration of the first loop of `getNewHeader`: read
`v = |headerNums[i]|` and, when `v` is a valid index holding a positive
entry, negate that entry in place. -/
def markStep (a : List Int) (i : Nat) : List Int :=
  let v := (a.getD i 0).natAbs
  if v < a.length ∧ 0 < a.getD v 0 then a.set v (-(a.getD v 0)) else a

/-- The first loop of `getNewHeader`: `for (let i = 1; i < len; ++i)`. -/
def markLoop (a : List Int) (i : Nat) : List Int :=
  if h : i < a.length then markLoop (markStep a i) (i + 1) else a
termination_by a.length - i
decreasing_by
  simp only [markStep]
  split <;> simp <;> omega

/-- The second loop of `getNewHeader`: the first index `i ≥ 1` whose entry
is still positive, or the length of the array when every entry got
marked. -/
def findPosLoop (a : List Int) (i : Nat) : Nat :=
  if h : i < a.length then
    (if 0 < a.getD i 0 then i else findPosLoop a (i + 1))
  else a.length
termination_by a.length - i

/-- `getNewHeader` returns the number of the header slot to allocate
(the source returns the string `headerPrefix + i`; we return `i`). -/
def getNewHeader (headerNums : List Int) : Nat :=
  findPosLoop (markLoop headerNums 1) 1

/-! ## Substrate-level operations of `KVManager` -/

section Ops

variable {V : Type}

/-- `getHeader`: read a header record, seeding `newhdr` when absent
(`kv.put(headerTag, newhdr)`). -/
def getHeader (s : KVState V) (n : Nat) : KVMHeader × KVState V :=
  match alookup s.headers n with
  | some h => (h, s)
  | none => (newhdr, { s with headers := aupsert s.headers n newhdr })

/-- `findKeyHeader`: scan the listed header records for one whose
`dataptr` contains the key; first hit wins. -/
def findKeyHeader (s : KVState V) (key : String) : Option (Nat × KVMHeader) :=
  s.headers.find? (fun p => (alookup p.2.dataptr key).isSome)

/-- `findDataPtr`: locate a key, returning the expanded pointer and the
header tag that holds it (`[{tag: -1, id: ''}, undefined]` on a miss). -/
def findDataPtr (s : KVState V) (key : String) : DataPtr × Option Nat :=
  match findKeyHeader s key with
  | none => ({ tag := -1, id := [] }, none)
  | some (n, h) => (expandDP2 ((alookup h.dataptr key).getD []), some n)

/-- `incrementID`: one atomic `transactWithResult` on `header0` returning
the current `nextID` and writing back `nextID + 1`.  (The source's
`if (hdr == undefined)` branch is dead: the default parameter already
substitutes `newhdr`.) -/
def incrementID (s : KVState V) : Nat × KVState V :=
  let hdr := (alookup s.headers 0).getD newhdr
  (hdr.nextID,
   { s with headers := aupsert s.headers 0 { hdr with nextID := hdr.nextID + 1 } })

/-- `updateKeyHdr`: transact merging `key ↦ compressDataPtr dp` into the
header's `dataptr` (default `newhdr` when the record is absent). -/
def updateKeyHdr (s : KVState V) (n : Nat) (k : String) (dp : DataPtr) : KVState V :=
  let hdr := (alookup s.headers n).getD newhdr
  { s with
    headers := aupsert s.headers n
      { hdr with dataptr := aupsert hdr.dataptr k (compressDataPtr dp) } }

/-- `deleteKeyHdr`: transact on a header record.  On an absent record the
callback returns `undefined` (deleting an absent record: no-op).  When the
header is not `header0` and its `dataptr` holds exactly one entry the
callback also returns `undefined`, which deletes the whole header
record.  Otherwise the key's entry is removed. -/
def deleteKeyHdr (s : KVState V) (n : Nat) (key : String) : KVState V :=
  match alookup s.headers n with
  | none => s
  | some hdr =>
    if n ≠ 0 ∧ hdr.dataptr.length = 1 then
      { s with headers := aerase s.headers n }
    else
      { s with
        headers := aupsert s.headers n
          { hdr with dataptr := aerase hdr.dataptr key } }

/-- `addBlock`: transact on `header0`.  JS `dataBlock in hdr.blocks` is an
ARRAY INDEX test (`0 ≤ dataBlock < blocks.length`), not a membership
test; the block is appended when that test fails.  Both branches write a
record back, so an absent `header0` gets created. -/
def addBlock (s : KVState V) (b : Int) : KVState V :=
  let hdr := (alookup s.headers 0).getD newhdr
  if ¬(0 ≤ b ∧ b.toNat < hdr.blocks.length) then
    { s with headers := aupsert s.headers 0 { hdr with blocks := hdr.blocks ++ [b] } }
  else
    { s with headers := aupsert s.headers 0 hdr }

/-- `blocks.splice(blocks.indexOf(b), 1)`: removes the first occurrence
of `b`, and removes the LAST element when `b` is absent (`indexOf`
returns `-1` and `splice(-1, 1)` drops the final element). -/
def spliceRemove (l : List Int) (b : Int) : List Int :=
  if b ∈ l then l.erase b else l.dropLast

/-- `removeBlock`: transact on `header0` guarded by the same JS
index-in-array test.  When the test fails the callback returns
`undefined`, which DELETES the `header0` record (deleting an absent
record is a no-op). -/
def removeBlock (s : KVState V) (b : Int) : KVState V :=
  let hdr := (alookup s.headers 0).getD newhdr
  if 0 ≤ b ∧ b.toNat < hdr.blocks.length then
    { s with headers := aupsert s.headers 0 { hdr with blocks := spliceRemove hdr.blocks b } }
  else
    { s with headers := aerase s.headers 0 }

end Ops

/-! ## Size measurement (the external `size_of` collaborator)

The code applies `sizeof` (the UTF-8 byte length of `JSON.stringify`) at
four shapes.  The model takes these as parameters; the value type `V`
stands for the serialized form of a stored JSON value. -/

section SizedOps

variable {V : Type}
variable (szEntry : CodeStr → Option V → Nat)
variable (szTagRec : Nat → List (CodeStr × V) → Nat)
variable (szHdr : KVMHeader → Nat)
variable (szHdrEntry : String → DataPtr → Nat)

/-- `updateKeyTag`: transact merging `dptr.id ↦ v` into the bucket's
`data` (default `emptyTag` when absent), then `ret.size = sizeof(ret)` —
note the record measured still carries the PREVIOUS `size` field. -/
def updateKeyTag (s : KVState V) (dp : DataPtr) (v : V) : KVState V :=
  let prev := (alookup s.tags dp.tag).getD emptyTag
  let newdata := aupsert prev.data dp.id v
  { s with tags := aupsert s.tags dp.tag { size := szTagRec prev.size newdata, data := newdata } }

/-- `deleteKeyTag`: transact on the bucket — no-op when absent; when the
`data` map holds exactly ONE entry the callback returns `undefined`,
deleting the whole record (the entry-count test never checks that the
requested id is the one present); otherwise the id's entry is removed and
`size` re-measured.  Afterwards the record is re-read and, when it no
longer exists, `removeBlock(dptr.tag)` is issued. -/
def deleteKeyTag (s : KVState V) (dp : DataPtr) : KVState V :=
  let s1 :=
    match alookup s.tags dp.tag with
    | none => s
    | some prev =>
      if prev.data.length = 1 then { s with tags := aerase s.tags dp.tag }
      else
        let newdata := aerase prev.data dp.id
        { s with
          tags := aupsert s.tags dp.tag { size := szTagRec prev.size newdata, data := newdata } }
  match alookup s1.tags dp.tag with
  | none => removeBlock s1 dp.tag
  | some _ => s1

/-- `getData`: `datum ? datum.data[dptr.id] : undefined` (no error is
signalled for an absent bucket or id). -/
def getData (s : KVState V) (dp : DataPtr) : Option V :=
  match alookup s.tags dp.tag with
  | none => none
  | some datum => alookup datum.data dp.id

/-- `itemUpdateWillFit`: `false` when the bucket record is absent, else
`datum.size - sizeof({id: datum.data[id]}) + sizeof({id: newValue}) <
MAX_TAG_SIZE` (JS arithmetic, hence over `Int`). -/
def itemUpdateWillFit (s : KVState V) (dp : DataPtr) (v : V) : Bool :=
  match alookup s.tags dp.tag with
  | none => false
  | some datum =>
    let prevSize := szEntry dp.id (alookup datum.data dp.id)
    let newSize := szEntry dp.id (some v)
    decide ((datum.size : Int) - prevSize + newSize < (MAX_TAG_SIZE : Int))

/-- The inline availability test of `findEmptyTag`:
`(datum ? datum.size : 0) + size < MAX_TAG_SIZE`. -/
def tagFitTest (s : KVState V) (b : Int) (size : Nat) : Bool :=
  decide ((match alookup s.tags b with | none => 0 | some d => d.size) + size < MAX_TAG_SIZE)

/-- `Math.max(...l)` for a non-empty array. -/
def maxList : List Int → Int
  | [] => 0
  | h :: t => t.foldl max h

/-- `findEmptyTag`: first-fit scan over `header0.blocks`; on failure the
new tag number is `max(blocks) + 1` (or `0` for an empty block list),
registered via `addBlock` when the JS index-in-array test fails. -/
def findEmptyTag (s : KVState V) (size : Nat) : Int × KVState V :=
  let p := getHeader s 0
  match p.1.blocks.find? (fun b => tagFitTest p.2 b size) with
  | some b => (b, p.2)
  | none =>
    let newTagNum : Int := if 0 < p.1.blocks.length then maxList p.1.blocks + 1 else 0
    if ¬(0 ≤ newTagNum ∧ newTagNum.toNat < p.1.blocks.length) then
      (newTagNum, addBlock p.2 newTagNum)
    else (newTagNum, p.2)

/-- `findEmptyHdr`: first-fit scan over the listed headers by serialized
size; on failure, allocate the slot returned by `getNewHeader` applied to
the listed header numbers. -/
def findEmptyHdr (s : KVState V) (size : Nat) : Nat :=
  match s.headers.find? (fun p => decide (szHdr p.2 + size < MAX_TAG_SIZE)) with
  | some p => p.1
  | none => getNewHeader (s.headers.map (fun p => (p.1 : Int)))

/-- `get(key)`: locate the pointer and read it; `undefined` when the key
has no header entry. -/
def get (s : KVState V) (key : String) : Option V :=
  let p := findDataPtr s key
  match p.2 with
  | some _ => getData s p.1
  | none => none

/-- `set(key, value)`, instrumented to also report the counter value
consumed when a fresh id is allocated (`none` when the key already
existed).  The state threading follows the source order: locate, fit test
or id allocation, old-bucket removal on a move, bucket search, header
assignment, bucket upsert. -/
def setA (s : KVState V) (key : String) (v : V) : KVState V × Option Nat :=
  let p0 := findDataPtr s key
  match p0.2 with
  | some hn =>
    if itemUpdateWillFit szEntry s p0.1 v then
      (updateKeyTag szTagRec s p0.1 v, none)
    else
      let s1 := deleteKeyTag szTagRec s p0.1
      let size := szEntry p0.1.id (some v)
      let q := findEmptyTag s1 size
      let dp1 : DataPtr := { tag := q.1, id := p0.1.id }
      let s3 := updateKeyHdr q.2 hn key dp1
      (updateKeyTag szTagRec s3 dp1 v, none)
  | none =>
    let r := incrementID s
    let idStr := num2str r.1
    let size := szEntry idStr (some v)
    let q := findEmptyTag r.2 size
    let dp1 : DataPtr := { tag := q.1, id := idStr }
    let hdrSize := szHdrEntry key dp1
    let hn := findEmptyHdr szHdr q.2 hdrSize
    let s3 := updateKeyHdr q.2 hn key dp1
    (updateKeyTag szTagRec s3 dp1 v, some r.1)

/-- `set(key, value)`: the state transformer. -/
def set (s : KVState V) (key : String) (v : V) : KVState V :=
  (setA szEntry szTagRec szHdr szHdrEntry s key v).1

/-- `delete(key)`: locate, then `deleteKeyHdr` followed by
`deleteKeyTag`; no-op when the key has no header entry. -/
def delete (s : KVState V) (key : String) : KVState V :=
  let p := findDataPtr s key
  match p.2 with
  | none => s
  | some hn => deleteKeyTag szTagRec (deleteKeyHdr s hn key) p.1

/-- Run a list of `set` calls, collecting the counter values consumed by
fresh-id allocations, in order. -/
def runSets (s : KVState V) : List (String × V) → KVState V × List Nat
  | [] => (s, [])
  | (k, v) :: rest =>
    let r := setA szEntry szTagRec szHdr szHdrEntry s k v
    let q := runSets r.1 rest
    (q.1, (match r.2 with | some n => [n] | none => []) ++ q.2)

end SizedOps

/-! ## A concrete instantiation of the size estimator

`sizeof(obj) = new TextEncoder().encode(JSON.stringify(obj)).byteLength`.
We instantiate `V := Nat`, a value `n : Nat` standing for a stored JSON
string of `n` ASCII bytes (no characters needing JSON escaping).  The
four size parameters below compute the exact `JSON.stringify` UTF-8 byte
lengths of the corresponding records under that reading. -/

/-- UTF-8 byte length of one code unit (basic-plane, non-surrogate). -/
def u8len (c : Nat) : Nat := if c < 128 then 1 else if c < 2048 then 2 else 3

/-- UTF-8 byte length of a code-unit string (assumed free of characters
that JSON.stringify would escape). -/
def u8str (s : CodeStr) : Nat := (s.map u8len).sum

/-- Decimal digit count, structurally recursive on a (always sufficient)
fuel argument so concrete sizes reduce in the kernel. -/
def numDigitsAux : Nat → Nat → Nat
  | 0, _ => 1
  | f + 1, n => if n < 10 then 1 else 1 + numDigitsAux f (n / 10)

/-- Number of decimal digits of `n` (length of its JSON rendering). -/
def numDigits (n : Nat) : Nat := numDigitsAux n n

/-- Digits of a JS number rendering, with a sign for negatives. -/
def intDigits (i : Int) : Nat :=
  if i < 0 then 1 + numDigits (-i).toNat else numDigits i.toNat

/-- `sizeof({ [id]: v })` for a string value of `v` ASCII bytes:
`{"id":"v"}`.  `JSON.stringify({a: undefined})` is `"{}"`, 2 bytes. -/
def szEntryC (id : CodeStr) : Option Nat → Nat
  | some v => 7 + u8str id + v
  | none => 2

/-- Byte length of one `"id":"v"` member of a data map. -/
def szMemberC (e : CodeStr × Nat) : Nat := 5 + u8str e.1 + e.2

/-- `sizeof` of a whole bucket record `{"size":N,"data":{...}}` whose
`size` field still holds `N`. -/
def szTagRecC (N : Nat) (d : List (CodeStr × Nat)) : Nat :=
  19 + numDigits N + (d.map szMemberC).sum + (d.length - 1)

/-- Byte length of one `"key":"dp2"` member of a `dataptr` map. -/
def szPtrMemberC (e : String × CodeStr) : Nat :=
  5 + e.1.utf8ByteSize + u8str e.2

/-- `sizeof` of a whole header record
`{"blocks":[...],"dataptr":{...},"nextID":N}`. -/
def szHdrC (h : KVMHeader) : Nat :=
  36 + ((h.blocks.map intDigits).sum + (h.blocks.length - 1))
     + ((h.dataptr.map szPtrMemberC).sum + (h.dataptr.length - 1))
     + numDigits h.nextID

/-- `sizeof({ [key]: dptr })` for a structured pointer:
`{"key":{"tag":T,"id":"I"}}`. -/
def szHdrEntryC (key : String) (dp : DataPtr) : Nat :=
  21 + key.utf8ByteSize + intDigits dp.tag + u8str dp.id

/-- `set` at the concrete size instantiation. -/
def setC (s : KVState Nat) (key : String) (v : Nat) : KVState Nat :=
  set szEntryC szTagRecC szHdrC szHdrEntryC s key v

/-- `get` at the concrete size instantiation (no size parameter is
involved in `get`; alias for readability of concrete statements). -/
def getC (s : KVState Nat) (key : String) : Option Nat := get s key

/-- `delete` at the concrete size instantiation. -/
def deleteC (s : KVState Nat) (key : String) : KVState Nat :=
  delete szTagRecC s key

/-- `runSets` at the concrete size instantiation. -/
def runSetsC (s : KVState Nat) (ops : List (String × Nat)) : KVState Nat × List Nat :=
  runSets szEntryC szTagRecC szHdrC szHdrEntryC s ops

/-! ## Named states and runs used by concrete statements -/

/-- No header of the state contains `k` in its `dataptr`. -/
def NoKey {V : Type} (s : KVState V) (k : String) : Prop :=
  ∀ x ∈ s.headers, alookup x.2.dataptr k = none

/-- No header other than number `hn` contains `k` in its `dataptr`. -/
def NoKeyBut {V : Type} (s : KVState V) (k : String) (hn : Nat) : Prop :=
  ∀ x ∈ s.headers, x.1 ≠ hn → alookup x.2.dataptr k = none

/-- The `blocks` list of `header0` (empty when the record is absent). -/
def hdr0blocks {V : Type} (s : KVState V) : List Int :=
  match alookup s.headers 0 with
  | none => []
  | some h => h.blocks

/-- Modelled from the spec: the Bucket Store fit predicate of §4.4,
`fits(bucket, size_delta)` = `bucket.size + size_delta < MAX_TAG_SIZE`
with an absent bucket counting as size 0.  Stated from the spec's words,
to be compared with the code's two fit tests. -/
def fitsSpec {V : Type} (bucket : Option (KVDataTag V)) (delta : Nat) : Prop :=
  (match bucket with | none => 0 | some d => d.size) + delta < MAX_TAG_SIZE

/-- A state whose only header entry points at bucket 0, which has no
record: a dangling pointer (the compressed pointer `[161, 161]` expands
to `{tag := 0, id := [161]}`). -/
def dangState : KVState Nat :=
  { headers := [(0, { blocks := [0], dataptr := [("k", [161, 161])], nextID := 162 })],
    tags := [] }

/-- A state with a non-primary header (`header1`) holding exactly one
`dataptr` entry. -/
def lastEntryState : KVState Nat :=
  { headers := [(1, { blocks := [], dataptr := [("k", [161, 161])], nextID := 161 })],
    tags := [] }

/-- A one-key state: `k` lives alone in bucket 0 (`[161, 161]` expands to
`{tag := 0, id := [161]}`). -/
def oneKeyState : KVState Nat :=
  { headers := [(0, { blocks := [0], dataptr := [("k", [161, 161])], nextID := 162 })],
    tags := [(0, { size := 30, data := [([161], 7)] })] }

/-- Eight `set` calls from the empty namespace: four fresh keys with
1900-byte ASCII string values (each fills most of one bucket), then three
updates to 1980-byte values (each forces a move into a fresh bucket), and
one more such update.  The eighth call empties bucket 4 while
`header0.blocks = [0, 4, 5, 6]`; `removeBlock(4)` fails the JS
index-in-array test, its transaction returns `undefined` and `header0` is
deleted, so the following insertion targets the occupied bucket 0 with no
fit check. -/
def capacityBugOps : List (String × Nat) :=
  [("a", 1900), ("b", 1900), ("c", 1900), ("d", 1900),
   ("b", 1980), ("c", 1980), ("d", 1980), ("b", 1980)]

/-- The same run followed by one more fresh key: after `header0` was
deleted (losing `nextID`), the new key is allocated counter value 161
again. -/
def idBugOps : List (String × Nat) := capacityBugOps ++ [("e", 10)]

/-! ## Association-list lemmas -/

section AListLemmas

variable {α β : Type} [DecidableEq α]

theorem alookup_aupsert_self (l : List (α × β)) (k : α) (v : β) :
    alookup (aupsert l k v) k = some v := by
  induction l with
  | nil => simp [aupsert, alookup]
  | cons a t ih =>
    rcases a with ⟨a1, a2⟩
    by_cases h : a1 = k
    · simp [aupsert, h, alookup]
    · simpa [aupsert, h, alookup] using ih

theorem alookup_aupsert_ne (l : List (α × β)) {k q : α} (v : β) (h : q ≠ k) :
    alookup (aupsert l k v) q = alookup l q := by
  have hkq : ¬ k = q := fun hh => h hh.symm
  induction l with
  | nil => simp [aupsert, alookup, hkq]
  | cons a t ih =>
    rcases a with ⟨a1, a2⟩
    by_cases ha : a1 = k
    · subst ha
      simp [aupsert, alookup, hkq]
    · simp only [aupsert, if_neg ha, alookup]
      by_cases hq : a1 = q
      · rw [if_pos hq, if_pos hq]
      · rw [if_neg hq, if_neg hq]
        exact ih

theorem alookup_aerase_ne (l : List (α × β)) {k q : α} (h : q ≠ k) :
    alookup (aerase l k) q = alookup l q := by
  induction l with
  | nil => simp [aerase]
  | cons a t ih =>
    rcases a with ⟨a1, a2⟩
    by_cases ha : a1 = k
    · subst ha
      have hq : ¬ a1 = q := fun hh => h hh.symm
      simp [aerase, alookup, hq]
    · simp only [aerase, if_neg ha, alookup]
      by_cases hq : a1 = q
      · rw [if_pos hq, if_pos hq]
      · rw [if_neg hq, if_neg hq]
        exact ih

theorem mem_aerase {l : List (α × β)} {k : α} {x : α × β} (h : x ∈ aerase l k) : x ∈ l := by
  induction l with
  | nil => simp [aerase] at h
  | cons a t ih =>
    rcases a with ⟨a1, a2⟩
    by_cases ha : a1 = k
    · simp only [aerase, if_pos ha] at h
      exact List.mem_cons_of_mem _ h
    · simp only [aerase, if_neg ha, List.mem_cons] at h
      rcases h with h | h
      · exact h ▸ List.mem_cons_self _ _
      · exact List.mem_cons_of_mem _ (ih h)

theorem mem_aupsert {l : List (α × β)} {k : α} {v : β} {x : α × β}
    (h : x ∈ aupsert l k v) : x ∈ l ∨ x = (k, v) := by
  induction l with
  | nil => simpa [aupsert] using h
  | cons a t ih =>
    rcases a with ⟨a1, a2⟩
    by_cases ha : a1 = k
    · simp only [aupsert, if_pos ha, List.mem_cons] at h
      rcases h with h | h
      · exact Or.inr h
      · exact Or.inl (List.mem_cons_of_mem _ h)
    · simp only [aupsert, if_neg ha, List.mem_cons] at h
      rcases h with h | h
      · exact Or.inl (h ▸ List.mem_cons_self _ _)
      · rcases ih h with h | h
        · exact Or.inl (List.mem_cons_of_mem _ h)
        · exact Or.inr h

theorem keys_aerase_sublist (l : List (α × β)) (k : α) :
    ((aerase l k).map Prod.fst).Sublist (l.map Prod.fst) := by
  induction l with
  | nil => simp [aerase]
  | cons a t ih =>
    rcases a with ⟨a1, a2⟩
    by_cases ha : a1 = k
    · simp only [aerase, if_pos ha, List.map_cons]
      exact List.sublist_cons_self _ _
    · simp only [aerase, if_neg ha, List.map_cons]
      exact ih.cons₂ _

theorem nodup_aerase {l : List (α × β)} (k : α) (h : (l.map Prod.fst).Nodup) :
    ((aerase l k).map Prod.fst).Nodup :=
  (keys_aerase_sublist l k).nodup h

theorem nodup_aupsert {l : List (α × β)} (k : α) (v : β) (h : (l.map Prod.fst).Nodup) :
    ((aupsert l k v).map Prod.fst).Nodup := by
  induction l with
  | nil => simp [aupsert]
  | cons a t ih =>
    rcases a with ⟨a1, a2⟩
    simp only [List.map_cons, List.nodup_cons] at h
    by_cases ha : a1 = k
    · simp only [aupsert, if_pos ha, List.map_cons, List.nodup_cons]
      exact ⟨ha ▸ h.1, h.2⟩
    · simp only [aupsert, if_neg ha, List.map_cons, List.nodup_cons]
      refine ⟨fun hm => ?_, ih h.2⟩
      rcases List.mem_map.1 hm with ⟨x, hx, hfst⟩
      rcases mem_aupsert hx with hx | hx
      · exact h.1 (hfst ▸ List.mem_map_of_mem Prod.fst hx)
      · exact ha (by rw [hx] at hfst; exact hfst.symm)

theorem alookup_mem {l : List (α × β)} {k : α} {v : β} (h : alookup l k = some v) :
    (k, v) ∈ l := by
  induction l with
  | nil => simp [alookup] at h
  | cons a t ih =>
    rcases a with ⟨a1, a2⟩
    by_cases ha : a1 = k
    · subst ha
      simp only [alookup, eq_self_iff_true, if_true, Option.some.injEq] at h
      rw [← h]
      exact List.mem_cons_self _ _
    · simp only [alookup, if_neg ha] at h
      exact List.mem_cons_of_mem _ (ih h)

theorem alookup_aerase_self {l : List (α × β)} (k : α) (h : (l.map Prod.fst).Nodup) :
    alookup (aerase l k) k = none := by
  induction l with
  | nil => simp [aerase, alookup]
  | cons a t ih =>
    rcases a with ⟨a1, a2⟩
    simp only [List.map_cons, List.nodup_cons] at h
    by_cases ha : a1 = k
    · simp only [aerase, if_pos ha]
      subst ha
      cases hl : alookup t a1 with
      | none => rfl
      | some v =>
        exact absurd (List.mem_map_of_mem Prod.fst (alookup_mem hl)) h.1
    · simp [aerase, if_neg ha, alookup, ha, ih h.2]

theorem alookup_eq_some_of_mem {l : List (α × β)} {k : α} {v : β}
    (hnd : (l.map Prod.fst).Nodup) (hm : (k, v) ∈ l) : alookup l k = some v := by
  induction l with
  | nil => simp at hm
  | cons a t ih =>
    rcases a with ⟨a1, a2⟩
    simp only [List.map_cons, List.nodup_cons] at hnd
    rcases List.mem_cons.1 hm with hm | hm
    · rw [Prod.mk.injEq] at hm
      simp [alookup, hm.1.symm, hm.2]
    · have hak : a1 ≠ k := by
        intro hak
        exact hnd.1 (hak ▸ List.mem_map_of_mem Prod.fst hm)
      simp [alookup, hak, ih hnd.2 hm]

end AListLemmas

theorem find?_eq_of_unique {α β : Type} {l : List (α × β)} {p : α × β → Bool} {k : α} {v : β}
    (hnd : (l.map Prod.fst).Nodup) (hm : (k, v) ∈ l) (hp : p (k, v) = true)
    (hother : ∀ x ∈ l, x.1 ≠ k → p x = false) :
    l.find? p = some (k, v) := by
  induction l with
  | nil => simp at hm
  | cons a t ih =>
    simp only [List.map_cons, List.nodup_cons] at hnd
    rcases List.mem_cons.1 hm with hm | hm
    · rw [← hm]
      simp [List.find?, hp]
    · have hak : a.1 ≠ k := by
        intro hak
        exact hnd.1 (hak ▸ List.mem_map_of_mem Prod.fst hm)
      have hpa : p a = false := hother a (List.mem_cons_self _ _) hak
      simp only [List.find?, hpa]
      exact ih hnd.2 hm fun x hx => hother x (List.mem_cons_of_mem _ hx)

/-! ## Codec lemmas -/

theorem num2strAux_str2num {f n : Nat} (h : n ≤ f) : str2num (num2strAux f n) = n := by
  induction f generalizing n with
  | zero =>
    have : n = 0 := Nat.le_zero.1 h
    subst this
    simp [num2strAux, str2num]
  | succ f ih =>
    by_cases hd : 0 < n / 65535
    · have hrec : n / 65535 ≤ f := by
        have hlt : n / 65535 < n :=
          Nat.div_lt_self (Nat.lt_of_lt_of_le hd (Nat.div_le_self n 65535)) (by omega)
        omega
      simp only [num2strAux, if_pos hd, str2num, ih hrec]
      exact Nat.mod_add_div n 65535
    · have h0 : n / 65535 = 0 := by omega
      have hlt : n < 65535 := (Nat.div_eq_zero_iff (by omega)).1 h0
      simp [num2strAux, if_neg hd, str2num, Nat.mod_eq_of_lt hlt]

theorem str2num_num2str (n : Nat) : str2num (num2str n) = n :=
  num2strAux_str2num (Nat.le_refl n)

theorem num2str_injective {m n : Nat} (h : num2str m = num2str n) : m = n := by
  have := str2num_num2str m
  rw [h, str2num_num2str] at this
  exact this.symm

theorem num2str_of_lt {n : Nat} (h : n < 65535) : num2str n = [n] := by
  have h0 : ¬ 0 < n / 65535 := by
    have : n / 65535 = 0 := (Nat.div_eq_zero_iff (by omega)).2 h
    omega
  cases n with
  | zero => rfl
  | succ m => simp [num2str, num2strAux, if_neg h0, Nat.mod_eq_of_lt h]

theorem expand_compress {dp : DataPtr} (h0 : 0 ≤ dp.tag) (h1 : dp.tag + 161 < 65535) :
    expandDP2 (compressDataPtr dp) = dp := by
  rcases dp with ⟨t, i⟩
  simp only at h0 h1
  have ht : (t + 161).toNat < 65535 := by omega
  simp only [compressDataPtr, num2str_of_lt ht, List.cons_append, List.nil_append,
    expandDP2, List.take_succ_cons, List.take_zero, List.drop_succ_cons, List.drop_zero,
    str2num, DataPtr.mk.injEq]
  exact ⟨by omega, trivial⟩

/-! ## Small state-shape lemmas -/

section ShapeLemmas

variable {V : Type}

theorem removeBlock_tags (s : KVState V) (b : Int) : (removeBlock s b).tags = s.tags := by
  simp only [removeBlock]
  split <;> rfl

theorem addBlock_tags (s : KVState V) (b : Int) : (addBlock s b).tags = s.tags := by
  simp only [addBlock]
  split <;> rfl

theorem updateKeyHdr_tags (s : KVState V) (n : Nat) (k : String) (dp : DataPtr) :
    (updateKeyHdr s n k dp).tags = s.tags := rfl

theorem incrementID_tags (s : KVState V) : (incrementID s).2.tags = s.tags := rfl

theorem updateKeyTag_headers (szT : Nat → List (CodeStr × V) → Nat)
    (s : KVState V) (dp : DataPtr) (v : V) :
    (updateKeyTag szT s dp v).headers = s.headers := rfl

theorem deleteKeyHdr_tags (s : KVState V) (n : Nat) (key : String) :
    (deleteKeyHdr s n key).tags = s.tags := by
  unfold deleteKeyHdr
  split
  · rfl
  · split <;> rfl

/-- The complete behaviour of `deleteKeyTag`, as one case split. -/
theorem deleteKeyTag_eq (szT : Nat → List (CodeStr × V) → Nat)
    (s : KVState V) (dp : DataPtr) :
    deleteKeyTag szT s dp =
      match alookup s.tags dp.tag with
      | none => removeBlock s dp.tag
      | some prev =>
        if prev.data.length = 1 then
          (match alookup (aerase s.tags dp.tag) dp.tag with
           | none => removeBlock ({ s with tags := aerase s.tags dp.tag }) dp.tag
           | some _ => { s with tags := aerase s.tags dp.tag })
        else
          { s with
            tags := aupsert s.tags dp.tag
                      (KVDataTag.mk (szT prev.size (aerase prev.data dp.id))
                        (aerase prev.data dp.id)) } := by
  unfold deleteKeyTag
  rcases hm : alookup s.tags dp.tag with _ | prev
  · simp only [hm]
  · simp only [hm]
    by_cases hlen : prev.data.length = 1
    · simp only [if_pos hlen]
    · simp only [if_neg hlen, alookup_aupsert_self]

theorem removeBlock_nokey {s : KVState V} {b : Int} {k : String}
    (h : NoKey s k) : NoKey (removeBlock s b) k := by
  intro x hx
  simp only [removeBlock] at hx
  split at hx
  · simp only at hx
    rcases mem_aupsert hx with hx | hx
    · exact h x hx
    · rw [hx]
      cases hl : alookup s.headers 0 with
      | none => simp [hl, newhdr, alookup]
      | some h0 => simpa [hl] using h (0, h0) (alookup_mem hl)
  · exact h x (mem_aerase hx)

theorem deleteKeyTag_nokey {szT : Nat → List (CodeStr × V) → Nat}
    {s : KVState V} {dp : DataPtr} {k : String}
    (h : NoKey s k) : NoKey (deleteKeyTag szT s dp) k := by
  have h1 : ∀ l : List (Int × KVDataTag V), NoKey { s with tags := l } k :=
    fun _ x hx => h x hx
  rw [deleteKeyTag_eq]
  rcases alookup s.tags dp.tag with _ | prev
  · exact removeBlock_nokey h
  · by_cases hlen : prev.data.length = 1
    · simp only [if_pos hlen]
      rcases alookup (aerase s.tags dp.tag) dp.tag with _ | q
      · exact removeBlock_nokey (h1 _)
      · exact h1 _
    · simp only [if_neg hlen]
      exact h1 _

theorem mem_aupsert_self {α β : Type} [DecidableEq α] (l : List (α × β)) (k : α) (v : β) :
    (k, v) ∈ aupsert l k v := by
  induction l with
  | nil => simp [aupsert]
  | cons a t ih =>
    rcases a with ⟨a1, a2⟩
    by_cases ha : a1 = k
    · simp [aupsert, if_pos ha]
    · simp only [aupsert, if_neg ha, List.mem_cons]
      exact Or.inr ih

theorem noKeyBut_getHeader {s : KVState V} {n : Nat} {k : String} {hn : Nat}
    (h : NoKeyBut s k hn) : NoKeyBut (getHeader s n).2 k hn := by
  intro x hx hxn
  unfold getHeader at hx
  split at hx
  · exact h x hx hxn
  · simp only at hx
    rcases mem_aupsert hx with hx | hx
    · exact h x hx hxn
    · rw [hx]
      simp [newhdr, alookup]

theorem noKeyBut_addBlock {s : KVState V} {b : Int} {k : String} {hn : Nat}
    (h : NoKeyBut s k hn) : NoKeyBut (addBlock s b) k hn := by
  intro x hx hxn
  simp only [addBlock] at hx
  have hofmem : ∀ hh : KVMHeader, x = (0, hh) →
      hh.dataptr = ((alookup s.headers 0).getD newhdr).dataptr →
      alookup x.2.dataptr k = none := by
    intro hh hxe hdp
    rw [hxe]
    simp only
    rw [hdp]
    cases hl : alookup s.headers 0 with
    | none => simp [newhdr, alookup]
    | some h0 => simpa [hl] using h (0, h0) (alookup_mem hl) (by rw [hxe] at hxn; simpa using hxn)
  split at hx
  · rcases mem_aupsert hx with hx | hx
    · exact h x hx hxn
    · exact hofmem _ hx rfl
  · rcases mem_aupsert hx with hx | hx
    · exact h x hx hxn
    · exact hofmem _ hx rfl

theorem noKeyBut_removeBlock {s : KVState V} {b : Int} {k : String} {hn : Nat}
    (h : NoKeyBut s k hn) : NoKeyBut (removeBlock s b) k hn := by
  intro x hx hxn
  simp only [removeBlock] at hx
  split at hx
  · simp only at hx
    rcases mem_aupsert hx with hx | hx
    · exact h x hx hxn
    · rw [hx]
      simp only
      cases hl : alookup s.headers 0 with
      | none => simp [hl, newhdr, alookup]
      | some h0 =>
        simpa [hl] using h (0, h0) (alookup_mem hl) (by rw [hx] at hxn; simpa using hxn)
  · exact h x (mem_aerase hx) hxn

theorem noKeyBut_incrementID {s : KVState V} {k : String} {hn : Nat}
    (h : NoKeyBut s k hn) : NoKeyBut (incrementID s).2 k hn := by
  intro x hx hxn
  simp only [incrementID] at hx
  rcases mem_aupsert hx with hx | hx
  · exact h x hx hxn
  · rw [hx]
    simp only
    cases hl : alookup s.headers 0 with
    | none => simp [hl, newhdr, alookup]
    | some h0 =>
      simpa [hl] using h (0, h0) (alookup_mem hl) (by rw [hx] at hxn; simpa using hxn)

theorem noKeyBut_deleteKeyTag {szT : Nat → List (CodeStr × V) → Nat}
    {s : KVState V} {dp : DataPtr} {k : String} {hn : Nat}
    (h : NoKeyBut s k hn) : NoKeyBut (deleteKeyTag szT s dp) k hn := by
  have h1 : ∀ l : List (Int × KVDataTag V), NoKeyBut { s with tags := l } k hn :=
    fun _ x hx => h x hx
  rw [deleteKeyTag_eq]
  rcases alookup s.tags dp.tag with _ | prev
  · exact noKeyBut_removeBlock h
  · by_cases hlen : prev.data.length = 1
    · simp only [if_pos hlen]
      rcases alookup (aerase s.tags dp.tag) dp.tag with _ | q
      · exact noKeyBut_removeBlock (h1 _)
      · exact h1 _
    · simp only [if_neg hlen]
      exact h1 _

theorem noKeyBut_findEmptyTag {s : KVState V} {size : Nat} {k : String} {hn : Nat}
    (h : NoKeyBut s k hn) : NoKeyBut (findEmptyTag s size).2 k hn := by
  simp only [findEmptyTag]
  rcases hfind : List.find? (fun b => tagFitTest (getHeader s 0).2 b size)
      (getHeader s 0).1.blocks with _ | b
  · simp only [hfind]
    split <;> (try split) <;>
      first
        | exact noKeyBut_addBlock (noKeyBut_getHeader h)
        | exact noKeyBut_getHeader h
  · simp only [hfind]
    exact noKeyBut_getHeader h

theorem nodupH_getHeader {s : KVState V} {n : Nat}
    (h : (s.headers.map Prod.fst).Nodup) :
    (((getHeader s n).2.headers).map Prod.fst).Nodup := by
  unfold getHeader
  split
  · exact h
  · exact nodup_aupsert _ _ h

theorem nodupH_addBlock {s : KVState V} {b : Int}
    (h : (s.headers.map Prod.fst).Nodup) :
    (((addBlock s b).headers).map Prod.fst).Nodup := by
  simp only [addBlock]
  split <;> exact nodup_aupsert _ _ h

theorem nodupH_removeBlock {s : KVState V} {b : Int}
    (h : (s.headers.map Prod.fst).Nodup) :
    (((removeBlock s b).headers).map Prod.fst).Nodup := by
  simp only [removeBlock]
  split
  · exact nodup_aupsert _ _ h
  · exact nodup_aerase _ h

theorem nodupH_incrementID {s : KVState V}
    (h : (s.headers.map Prod.fst).Nodup) :
    (((incrementID s).2.headers).map Prod.fst).Nodup := by
  simp only [incrementID]
  exact nodup_aupsert _ _ h

theorem nodupH_deleteKeyTag {szT : Nat → List (CodeStr × V) → Nat}
    {s : KVState V} {dp : DataPtr}
    (h : (s.headers.map Prod.fst).Nodup) :
    (((deleteKeyTag szT s dp).headers).map Prod.fst).Nodup := by
  rw [deleteKeyTag_eq]
  rcases alookup s.tags dp.tag with _ | prev
  · exact nodupH_removeBlock h
  · by_cases hlen : prev.data.length = 1
    · simp only [if_pos hlen]
      rcases alookup (aerase s.tags dp.tag) dp.tag with _ | q
      · exact @nodupH_removeBlock V ({ s with tags := aerase s.tags dp.tag }) dp.tag h
      · exact h
    · simp only [if_neg hlen]
      exact h

theorem nodupH_findEmptyTag {s : KVState V} {size : Nat}
    (h : (s.headers.map Prod.fst).Nodup) :
    (((findEmptyTag s size).2.headers).map Prod.fst).Nodup := by
  simp only [findEmptyTag]
  rcases hfind : List.find? (fun b => tagFitTest (getHeader s 0).2 b size)
      (getHeader s 0).1.blocks with _ | b
  · simp only [hfind]
    split <;> (try split) <;>
      first
        | exact nodupH_addBlock (nodupH_getHeader h)
        | exact nodupH_getHeader h
  · simp only [hfind]
    exact nodupH_getHeader h

theorem hdr0blocks_incrementID (s : KVState V) :
    ∀ b ∈ hdr0blocks (incrementID s).2, b ∈ hdr0blocks s := by
  intro b hb
  simp only [incrementID, hdr0blocks, alookup_aupsert_self] at hb
  cases hl : alookup s.headers 0 with
  | none => simp [hl, newhdr] at hb
  | some h0 => simpa [hdr0blocks, hl] using (by rw [hl] at hb; simpa using hb : b ∈ h0.blocks)

theorem spliceRemove_subset {l : List Int} {b c : Int} (h : c ∈ spliceRemove l b) : c ∈ l := by
  unfold spliceRemove at h
  split at h
  · exact (List.erase_sublist _ _).mem h
  · exact (List.dropLast_sublist _).mem h

theorem hdr0blocks_removeBlock {s : KVState V} {b : Int}
    (hnd : (s.headers.map Prod.fst).Nodup) :
    ∀ c ∈ hdr0blocks (removeBlock s b), c ∈ hdr0blocks s := by
  intro c hc
  simp only [removeBlock] at hc
  split at hc
  · simp only [hdr0blocks, alookup_aupsert_self] at hc
    have hc2 := spliceRemove_subset hc
    cases hl : alookup s.headers 0 with
    | none => rw [hl] at hc2; simp [newhdr] at hc2
    | some h0 => rw [hl] at hc2; simpa [hdr0blocks, hl] using hc2
  · simp only [hdr0blocks, alookup_aerase_self 0 hnd] at hc
    simp at hc

theorem hdr0blocks_deleteKeyTag {szT : Nat → List (CodeStr × V) → Nat}
    {s : KVState V} {dp : DataPtr}
    (hnd : (s.headers.map Prod.fst).Nodup) :
    ∀ c ∈ hdr0blocks (deleteKeyTag szT s dp), c ∈ hdr0blocks s := by
  have hsame : ∀ l : List (Int × KVDataTag V),
      hdr0blocks { s with tags := l } = hdr0blocks s := fun _ => rfl
  rw [deleteKeyTag_eq]
  rcases alookup s.tags dp.tag with _ | prev
  · exact hdr0blocks_removeBlock hnd
  · by_cases hlen : prev.data.length = 1
    · simp only [if_pos hlen]
      rcases alookup (aerase s.tags dp.tag) dp.tag with _ | q
      · intro c hc
        have := @hdr0blocks_removeBlock V ({ s with tags := aerase s.tags dp.tag })
          dp.tag hnd c hc
        rw [hsame] at this
        exact this
      · intro c hc
        rw [hsame] at hc
        exact hc
    · simp only [if_neg hlen]
      intro c hc
      rw [hsame] at hc
      exact hc

theorem foldl_max_le {l : List Int} : ∀ {a B : Int}, a ≤ B → (∀ b ∈ l, b ≤ B) →
    l.foldl max a ≤ B := by
  induction l with
  | nil => intro a B ha _; simpa using ha
  | cons c t ih =>
    intro a B ha hl
    simp only [List.foldl_cons]
    exact ih (max_le ha (hl c (List.mem_cons_self _ _)))
      (fun b hb => hl b (List.mem_cons_of_mem _ hb))

theorem le_foldl_max {l : List Int} : ∀ {a : Int}, a ≤ l.foldl max a := by
  induction l with
  | nil => intro a; simp
  | cons c t ih =>
    intro a
    simp only [List.foldl_cons]
    exact le_trans (le_max_left a c) ih

theorem maxList_bounds {l : List Int} {B : Int} (hne : l ≠ [])
    (h0 : ∀ b ∈ l, 0 ≤ b ∧ b ≤ B) : 0 ≤ maxList l ∧ maxList l ≤ B := by
  rcases l with _ | ⟨hd, t⟩
  · exact absurd rfl hne
  · simp only [maxList]
    constructor
    · exact le_trans (h0 hd (List.mem_cons_self _ _)).1 le_foldl_max
    · exact foldl_max_le (h0 hd (List.mem_cons_self _ _)).2
        (fun b hb => (h0 b (List.mem_cons_of_mem _ hb)).2)

theorem findEmptyTag_range {s : KVState V} {size : Nat}
    (hb : ∀ b ∈ hdr0blocks s, 0 ≤ b ∧ b ≤ 65372) :
    0 ≤ (findEmptyTag s size).1 ∧ (findEmptyTag s size).1 ≤ 65373 := by
  have hblocks : (getHeader s 0).1.blocks = hdr0blocks s ∨ (getHeader s 0).1.blocks = [] := by
    unfold getHeader hdr0blocks
    cases alookup s.headers 0 with
    | none => exact Or.inr rfl
    | some h0 => exact Or.inl rfl
  have hb2 : ∀ b ∈ (getHeader s 0).1.blocks, 0 ≤ b ∧ b ≤ 65372 := by
    rcases hblocks with h | h <;> rw [h]
    · exact hb
    · simp
  simp only [findEmptyTag]
  rcases hfind : List.find? (fun b => tagFitTest (getHeader s 0).2 b size)
      (getHeader s 0).1.blocks with _ | b
  · simp only [hfind]
    by_cases hlen : 0 < (getHeader s 0).1.blocks.length
    · have hne : (getHeader s 0).1.blocks ≠ [] := by
        intro hh
        rw [hh] at hlen
        simp at hlen
      have hmax := maxList_bounds hne hb2
      simp only [if_pos hlen]
      split <;> dsimp only <;> omega
    · simp only [if_neg hlen]
      split <;> dsimp only <;> omega
  · simp only [hfind]
    have := hb2 b (List.mem_of_find?_eq_some hfind)
    omega

theorem findKeyHeader_eq_of_headers_eq {s1 s2 : KVState V} {k : String}
    (h : s1.headers = s2.headers) : findKeyHeader s1 k = findKeyHeader s2 k := by
  unfold findKeyHeader
  rw [h]

theorem getData_updateKeyTag (szT : Nat → List (CodeStr × V) → Nat)
    (s : KVState V) (dp : DataPtr) (v : V) :
    getData (updateKeyTag szT s dp v) dp = some v := by
  unfold getData updateKeyTag
  simp only [alookup_aupsert_self]

end ShapeLemmas

theorem alookup_isSome_of_mem_keys {α β : Type} [DecidableEq α]
    {l : List (α × β)} {k : α} (h : k ∈ l.map Prod.fst) :
    (alookup l k).isSome = true := by
  induction l with
  | nil => simp at h
  | cons a t ih =>
    rcases a with ⟨a1, a2⟩
    by_cases ha : a1 = k
    · simp [alookup, ha]
    · simp only [List.map_cons, List.mem_cons] at h
      rcases h with h | h
      · exact absurd h.symm ha
      · simp [alookup, ha, ih h]

theorem mem_aupsert_nodup {α β : Type} [DecidableEq α]
    {l : List (α × β)} {k : α} {v : β} {x : α × β}
    (hnd : (l.map Prod.fst).Nodup) (h : x ∈ aupsert l k v) :
    (x ∈ l ∧ x.1 ≠ k) ∨ x = (k, v) := by
  induction l with
  | nil =>
    simp only [aupsert, List.mem_cons, List.not_mem_nil, or_false] at h
    exact Or.inr h
  | cons a t ih =>
    rcases a with ⟨a1, a2⟩
    simp only [List.map_cons, List.nodup_cons] at hnd
    by_cases ha : a1 = k
    · simp only [aupsert, if_pos ha, List.mem_cons] at h
      rcases h with h | h
      · exact Or.inr h
      · refine Or.inl ⟨List.mem_cons_of_mem _ h, fun hx => ?_⟩
        exact hnd.1 (ha ▸ hx ▸ List.mem_map_of_mem Prod.fst h)
    · simp only [aupsert, if_neg ha, List.mem_cons] at h
      rcases h with h | h
      · exact Or.inl ⟨h ▸ List.mem_cons_self _ _, h ▸ ha⟩
      · rcases ih hnd.2 h with ⟨hm, hne⟩ | he
        · exact Or.inl ⟨List.mem_cons_of_mem _ hm, hne⟩
        · exact Or.inr he

/-! ## C6 — the smallest-missing-header-slot algorithm -/

theorem getD_set_self {l : List Int} {i : Nat} (x : Int) (h : i < l.length) :
    (l.set i x).getD i 0 = x := by
  rw [List.getD_eq_getElem?_getD, List.getElem?_set_eq_of_lt x h]
  rfl

theorem getD_set_ne {l : List Int} {i j : Nat} (x : Int) (h : i ≠ j) :
    (l.set i x).getD j 0 = l.getD j 0 := by
  rw [List.getD_eq_getElem?_getD, List.getD_eq_getElem?_getD, List.getElem?_set_ne h]

theorem markStep_length (b : List Int) (i : Nat) : (markStep b i).length = b.length := by
  simp only [markStep]
  split <;> simp

theorem markLoop_of_ge {b : List Int} {i : Nat} (h : ¬ i < b.length) : markLoop b i = b := by
  rw [markLoop, dif_neg h]

/-- Invariant propagation through the whole marking loop.  `a` is the
original array (head 0, positive tail); `b` is the current array; the
entries of `b` agree with `a` up to sign, and for `1 ≤ p < len` the entry
at `p` is negative exactly when the value `p` occurs among
`a[1..i-1]`. -/
theorem markLoop_spec (a : List Int)
    (hpos : ∀ j, j < a.length → 1 ≤ j → 0 < a.getD j 0) :
    ∀ n i b, a.length - i ≤ n → 1 ≤ i →
      b.length = a.length →
      (∀ j, j < a.length → b.getD j 0 = a.getD j 0 ∨ b.getD j 0 = -(a.getD j 0)) →
      (∀ p, p < a.length → 1 ≤ p →
        (b.getD p 0 < 0 ↔ ∃ j, 1 ≤ j ∧ j < i ∧ a.getD j 0 = (p : Int))) →
      (markLoop b i).length = a.length ∧
      (∀ j, j < a.length →
        (markLoop b i).getD j 0 = a.getD j 0 ∨ (markLoop b i).getD j 0 = -(a.getD j 0)) ∧
      (∀ p, p < a.length → 1 ≤ p →
        ((markLoop b i).getD p 0 < 0 ↔
          ∃ j, 1 ≤ j ∧ j < a.length ∧ a.getD j 0 = (p : Int))) := by
  have final : ∀ i b, a.length ≤ i →
      b.length = a.length →
      (∀ j, j < a.length → b.getD j 0 = a.getD j 0 ∨ b.getD j 0 = -(a.getD j 0)) →
      (∀ p, p < a.length → 1 ≤ p →
        (b.getD p 0 < 0 ↔ ∃ j, 1 ≤ j ∧ j < i ∧ a.getD j 0 = (p : Int))) →
      (markLoop b i).length = a.length ∧
      (∀ j, j < a.length →
        (markLoop b i).getD j 0 = a.getD j 0 ∨ (markLoop b i).getD j 0 = -(a.getD j 0)) ∧
      (∀ p, p < a.length → 1 ≤ p →
        ((markLoop b i).getD p 0 < 0 ↔
          ∃ j, 1 ≤ j ∧ j < a.length ∧ a.getD j 0 = (p : Int))) := by
    intro i b hge hlen hsign hmark
    have hni : ¬ i < b.length := by omega
    rw [markLoop_of_ge hni]
    refine ⟨hlen, hsign, fun p hp hp1 => ?_⟩
    rw [hmark p hp hp1]
    constructor
    · rintro ⟨j, hj1, hji, hja⟩
      refine ⟨j, hj1, ?_, hja⟩
      by_contra hjlen
      push_neg at hjlen
      rw [List.getD_eq_default _ _ hjlen] at hja
      omega
    · rintro ⟨j, hj1, hjlen, hja⟩
      exact ⟨j, hj1, by omega, hja⟩
  intro n
  induction n with
  | zero =>
    intro i b hn h1 hlen hsign hmark
    exact final i b (by omega) hlen hsign hmark
  | succ n ih =>
    intro i b hn h1 hlen hsign hmark
    by_cases hib : i < b.length
    · rw [markLoop, dif_pos hib]
      have hia : i < a.length := by omega
      have hai : 0 < a.getD i 0 := hpos i hia h1
      have habs : (((b.getD i 0).natAbs : Nat) : Int) = a.getD i 0 := by
        rcases hsign i hia with h | h <;> omega
      by_cases hguard : (b.getD i 0).natAbs < b.length ∧ 0 < b.getD (b.getD i 0).natAbs 0
      · have hms : markStep b i =
            b.set (b.getD i 0).natAbs (-(b.getD (b.getD i 0).natAbs 0)) := by
          simp only [markStep]
          rw [if_pos hguard]
        have hvlen : (b.getD i 0).natAbs < b.length := hguard.1
        have hv1 : 1 ≤ (b.getD i 0).natAbs := by omega
        refine ih (i + 1) (markStep b i) ?_ (by omega) ?_ ?_ ?_
        · omega
        · rw [hms, List.length_set]
          exact hlen
        · intro j hj
          rw [hms]
          by_cases hjv : j = (b.getD i 0).natAbs
          · rw [hjv, getD_set_self _ hvlen]
            rcases hsign (b.getD i 0).natAbs (by omega) with h | h
            · right
              omega
            · left
              omega
          · rw [getD_set_ne _ (fun hh => hjv hh.symm)]
            exact hsign j hj
        · intro p hp hp1
          rw [hms]
          by_cases hpv : p = (b.getD i 0).natAbs
          · have hc : (b.set (b.getD i 0).natAbs
                (-(b.getD (b.getD i 0).natAbs 0))).getD p 0
                = -(b.getD (b.getD i 0).natAbs 0) := by
              rw [hpv]
              exact getD_set_self _ hvlen
            rw [hc]
            have hlhs : -(b.getD (b.getD i 0).natAbs 0) < 0 := by omega
            have hrhs : ∃ jj, 1 ≤ jj ∧ jj < i + 1 ∧ a.getD jj 0 = (p : Int) :=
              ⟨i, h1, Nat.lt_succ_self i, by rw [habs.symm, hpv]⟩
            exact iff_of_true hlhs hrhs
          · rw [getD_set_ne _ (fun hh => hpv hh.symm)]
            rw [hmark p hp hp1]
            constructor
            · rintro ⟨jj, hj1, hji, hja⟩
              exact ⟨jj, hj1, by omega, hja⟩
            · rintro ⟨jj, hj1, hji, hja⟩
              refine ⟨jj, hj1, ?_, hja⟩
              by_cases hje : jj = i
              · rw [hje] at hja
                exact absurd (by omega : p = (b.getD i 0).natAbs) hpv
              · omega
      · have hms : markStep b i = b := by
          simp only [markStep]
          rw [if_neg hguard]
        rw [hms]
        have hvcase : ¬ (b.getD i 0).natAbs < b.length ∨
            ((b.getD i 0).natAbs < b.length ∧ ¬ 0 < b.getD (b.getD i 0).natAbs 0) := by
          by_cases h : (b.getD i 0).natAbs < b.length
          · right
            exact ⟨h, fun hh => hguard ⟨h, hh⟩⟩
          · left
            exact h
        refine ih (i + 1) b (by omega) (by omega) hlen hsign ?_
        intro p hp hp1
        rw [hmark p hp hp1]
        rcases hvcase with hv | ⟨hvlen, hvneg⟩
        · constructor
          · rintro ⟨jj, hj1, hji, hja⟩
            exact ⟨jj, hj1, by omega, hja⟩
          · rintro ⟨jj, hj1, hji, hja⟩
            refine ⟨jj, hj1, ?_, hja⟩
            by_cases hje : jj = i
            · rw [hje] at hja
              omega
            · omega
        · have hv1 : 1 ≤ (b.getD i 0).natAbs := by omega
          have hbneg : b.getD (b.getD i 0).natAbs 0 < 0 := by
            have := hpos (b.getD i 0).natAbs (by omega) hv1
            rcases hsign (b.getD i 0).natAbs (by omega) with h | h <;> omega
          have hexv : ∃ jj, 1 ≤ jj ∧ jj < i ∧
              a.getD jj 0 = (((b.getD i 0).natAbs : Nat) : Int) :=
            (hmark (b.getD i 0).natAbs (by omega) hv1).1 hbneg
          constructor
          · rintro ⟨jj, hj1, hji, hja⟩
            exact ⟨jj, hj1, by omega, hja⟩
          · rintro ⟨jj, hj1, hji, hja⟩
            by_cases hje : jj = i
            · rw [hje] at hja
              have hpv : (p : Int) = (((b.getD i 0).natAbs : Nat) : Int) := by omega
              rcases hexv with ⟨j2, hj2⟩
              exact ⟨j2, hj2.1, hj2.2.1, by rw [hj2.2.2, ← hpv]⟩
            · exact ⟨jj, hj1, by omega, hja⟩
    · exact final i b (by omega) hlen hsign hmark

/-- The second loop: starting from `i` with every slot in `[1, i)` known
present, it returns the first index whose entry is still positive (a
missing slot under `hb`), or the array length when every entry in range
is marked. -/
theorem findPosLoop_spec (b : List Int) (vals : Nat → Prop)
    (hb : ∀ p, p < b.length → 1 ≤ p → (0 < b.getD p 0 ↔ ¬ vals p))
    (hlen1 : 1 ≤ b.length) :
    ∀ n i, b.length - i ≤ n → 1 ≤ i → (∀ m, 1 ≤ m → m < i → vals m) →
      1 ≤ findPosLoop b i ∧ findPosLoop b i ≤ b.length ∧
      (∀ m, 1 ≤ m → m < findPosLoop b i → vals m) ∧
      (findPosLoop b i < b.length → ¬ vals (findPosLoop b i)) := by
  intro n
  induction n with
  | zero =>
    intro i hn h1 hpre
    have hni : ¬ i < b.length := by omega
    rw [findPosLoop, dif_neg hni]
    exact ⟨by omega, le_refl _, fun m hm1 hmlen => hpre m hm1 (by omega),
      fun h => absurd h (lt_irrefl _)⟩
  | succ n ih =>
    intro i hn h1 hpre
    by_cases hib : i < b.length
    · rw [findPosLoop, dif_pos hib]
      by_cases hp : 0 < b.getD i 0
      · rw [if_pos hp]
        exact ⟨h1, by omega, fun m hm1 hmi => hpre m hm1 hmi,
          fun _ => (hb i hib h1).1 hp⟩
      · rw [if_neg hp]
        have hvi : vals i := by
          by_contra hni
          exact hp ((hb i hib h1).2 hni)
        refine ih (i + 1) (by omega) (by omega) ?_
        intro m hm1 hmi
        by_cases hmi2 : m = i
        · rw [hmi2]
          exact hvi
        · exact hpre m hm1 (by omega)
    · rw [findPosLoop, dif_neg hib]
      exact ⟨by omega, le_refl _, fun m hm1 hmlen => hpre m hm1 (by omega),
        fun h => absurd h (lt_irrefl _)⟩

/-- C6: given the used header-slot numbers as the code receives them — a
non-empty array whose first entry is slot 0 (the sorted listing always
puts `header0` first) and whose remaining entries are positive — the
in-place negation-marking algorithm returns the smallest positive
integer that is not an entry of the array. -/
theorem c6_smallest_missing_slot (a : List Int) (hlen : 1 ≤ a.length)
    (ha0 : a.getD 0 0 = 0)
    (hpos : ∀ j, j < a.length → 1 ≤ j → 0 < a.getD j 0) :
    1 ≤ getNewHeader a ∧
    (∀ j, j < a.length → a.getD j 0 ≠ (getNewHeader a : Int)) ∧
    (∀ m, 1 ≤ m → m < getNewHeader a → ∃ j, j < a.length ∧ a.getD j 0 = (m : Int)) := by
  obtain ⟨hblen, hbsign, hbmark⟩ :=
    markLoop_spec a hpos a.length 1 a (by omega) (le_refl 1) rfl
      (fun j _ => Or.inl rfl)
      (fun p hp hp1 => by
        constructor
        · intro hneg
          have := hpos p hp hp1
          omega
        · rintro ⟨j, hj1, hji, hja⟩
          omega)
  have hbpos : ∀ p, p < (markLoop a 1).length → 1 ≤ p →
      (0 < (markLoop a 1).getD p 0 ↔
        ¬ ∃ j, 1 ≤ j ∧ j < a.length ∧ a.getD j 0 = (p : Int)) := by
    intro p hp hp1
    have hp2 : p < a.length := by omega
    have hmk := hbmark p hp2 hp1
    have hs := hbsign p hp2
    have hap := hpos p hp2 hp1
    constructor
    · intro h0 hex
      have := hmk.2 hex
      omega
    · intro hnex
      rcases hs with h | h
      · omega
      · exact absurd (hmk.1 (by omega)) hnex
  obtain ⟨hr1, hrlen, hrpre, hrmiss⟩ :=
    findPosLoop_spec (markLoop a 1)
      (fun p => ∃ j, 1 ≤ j ∧ j < a.length ∧ a.getD j 0 = (p : Int)) hbpos (by omega)
      (markLoop a 1).length 1 (by omega) (le_refl 1)
      (fun m hm1 hmi => absurd hmi (by omega))
  simp only [getNewHeader]
  refine ⟨hr1, ?_, ?_⟩
  · intro j hj heq
    by_cases hrl : findPosLoop (markLoop a 1) 1 < a.length
    · have hmiss := hrmiss (by omega)
      apply hmiss
      by_cases hj0 : j = 0
      · rw [hj0, ha0] at heq
        omega
      · exact ⟨j, by omega, hj, heq⟩
    · have hreq : findPosLoop (markLoop a 1) 1 = a.length := by omega
      have hT : ∀ m, m < a.length + 1 → ∃ j2, j2 < a.length ∧ a.getD j2 0 = (m : Int) := by
        intro m hm
        by_cases hm0 : m = 0
        · refine ⟨0, by omega, ?_⟩
          rw [ha0, hm0]
          rfl
        · by_cases hmlen : m = a.length
          · refine ⟨j, hj, ?_⟩
            rw [heq, hreq, hmlen]
          · rcases hrpre m (by omega) (by omega) with ⟨j2, _, hj2len, hj2⟩
            exact ⟨j2, hj2len, hj2⟩
      have hsub : Finset.range (a.length + 1) ⊆
          (Finset.range a.length).image (fun j2 => (a.getD j2 0).toNat) := by
        intro m hm
        rw [Finset.mem_range] at hm
        rcases hT m hm with ⟨j2, hj2len, hj2⟩
        rw [Finset.mem_image]
        exact ⟨j2, Finset.mem_range.2 hj2len, by omega⟩
      have hcard := Finset.card_le_card hsub
      have h2 : ((Finset.range a.length).image (fun j2 => (a.getD j2 0).toNat)).card ≤
          (Finset.range a.length).card := Finset.card_image_le
      rw [Finset.card_range] at hcard
      rw [Finset.card_range] at h2
      omega
  · intro m hm1 hmr
    rcases hrpre m hm1 hmr with ⟨j, _, hjlen, hja⟩
    exact ⟨j, hjlen, hja⟩

theorem c6_smallest_missing_slot_witness :
    1 ≤ getNewHeader [0, 1, 3] ∧
    (∀ j, j < ([0, 1, 3] : List Int).length →
      ([0, 1, 3] : List Int).getD j 0 ≠ (getNewHeader [0, 1, 3] : Int)) ∧
    (∀ m, 1 ≤ m → m < getNewHeader [0, 1, 3] →
      ∃ j, j < ([0, 1, 3] : List Int).length ∧
        ([0, 1, 3] : List Int).getD j 0 = (m : Int)) :=
  c6_smallest_missing_slot [0, 1, 3] (by decide) (by decide)
    (by
      intro j hj h1
      have hj3 : j < 3 := by simpa using hj
      interval_cases j
      · decide
      · decide)

/-! ## C4 — pointer codec bijectivity -/

/-- C4: for every pointer whose bucket stays inside the printable window
(`bucket + 161 ≤ 7424`, the range the code documents as printable),
decoding the compact two-character encoding returns the original pointer:
`expandDP2 (compressDataPtr dp) = dp`. -/
theorem c4_pointer_codec_roundtrip (dp : DataPtr) (h0 : 0 ≤ dp.tag)
    (h1 : dp.tag + 161 ≤ 7424) :
    expandDP2 (compressDataPtr dp) = dp :=
  expand_compress h0 (by omega)

theorem c4_pointer_codec_roundtrip_witness :
    (0 : Int) ≤ (1 : Int) ∧ (1 : Int) + 161 ≤ 7424 ∧
      expandDP2 (compressDataPtr { tag := 1, id := [162] }) = { tag := 1, id := [162] } :=
  ⟨by decide, by decide,
    c4_pointer_codec_roundtrip { tag := 1, id := [162] } (by decide) (by decide)⟩

/-! ## C8 — the fit tests -/

/-- C8 counterexample: on an absent bucket record, the claim (absent
counts as size 0) predicts the in-place fit test succeeds for a small
update, but `itemUpdateWillFit` returns `false` for any absent bucket. -/
theorem c8_counterexample :
    itemUpdateWillFit szEntryC (emptyState : KVState Nat) { tag := 0, id := [161] } 1 = false ∧
    fitsSpec (alookup (emptyState : KVState Nat).tags 0) (szEntryC [161] (some 1)) := by
  constructor
  · rfl
  · show 0 + szEntryC [161] (some 1) < MAX_TAG_SIZE
    decide

/-- C8 (amended): the availability test used by `findEmptyTag` returns
true exactly when `bucket.size + delta < MAX_TAG_SIZE` with an absent
bucket counting as size 0; `itemUpdateWillFit` instead returns `false`
whenever the bucket record is absent, and otherwise applies the strict
marginal-size test `size - sizeof({id: old}) + sizeof({id: new}) <
MAX_TAG_SIZE`. -/
theorem c8_fit_tests {V : Type} (szE : CodeStr → Option V → Nat)
    (s : KVState V) (b : Int) (sz : Nat) (dp : DataPtr) (v : V) :
    (tagFitTest s b sz = true ↔ fitsSpec (alookup s.tags b) sz) ∧
    (itemUpdateWillFit szE s dp v = true ↔
      ∃ d, alookup s.tags dp.tag = some d ∧
        (d.size : Int) - szE dp.id (alookup d.data dp.id) + szE dp.id (some v) <
          (MAX_TAG_SIZE : Int)) := by
  constructor
  · unfold tagFitTest fitsSpec
    cases alookup s.tags b <;> simp
  · unfold itemUpdateWillFit
    cases h : alookup s.tags dp.tag <;> simp [h]

/-! ## C9 — `deleteKeyHdr` on a non-primary header with one entry -/

/-- C9 counterexample: on a non-primary header holding exactly one
`dataptr` entry, the transaction callback returns `undefined`, so the
whole header record is DELETED from the substrate rather than left
unchanged. -/
theorem c9_counterexample :
    alookup lastEntryState.headers 1 =
      some { blocks := [], dataptr := [("k", [161, 161])], nextID := 161 } ∧
    alookup (deleteKeyHdr lastEntryState 1 "k").headers 1 = none := by
  constructor <;> rfl

/-- C9 (amended): `deleteKeyHdr` removes the key's entry from the
header's `dataptr`; when the header is non-primary and its `dataptr`
holds exactly one entry (whichever key it belongs to), the transaction
instead deletes the entire header record; on the primary header the
removal always proceeds. -/
theorem c9_unassign_semantics {V : Type} (s : KVState V) (n : Nat) (key : String)
    (h : KVMHeader) (hnd : (s.headers.map Prod.fst).Nodup)
    (hl : alookup s.headers n = some h) :
    alookup (deleteKeyHdr s n key).headers n =
      if n ≠ 0 ∧ h.dataptr.length = 1 then none
      else some { h with dataptr := aerase h.dataptr key } := by
  unfold deleteKeyHdr
  rw [hl]
  by_cases hc : n ≠ 0 ∧ h.dataptr.length = 1
  · simp only [if_pos hc]
    exact alookup_aerase_self n hnd
  · simp only [if_neg hc]
    exact alookup_aupsert_self _ _ _

theorem c9_unassign_semantics_witness :
    alookup (deleteKeyHdr
        ({ headers := [(0, { blocks := [], dataptr := [("k", [161, 161])], nextID := 161 })],
           tags := [] } : KVState Nat) 0 "k").headers 0 =
      some { blocks := [], dataptr := [], nextID := 161 } :=
  c9_unassign_semantics
    { headers := [(0, { blocks := [], dataptr := [("k", [161, 161])], nextID := 161 })],
      tags := [] }
    0 "k" { blocks := [], dataptr := [("k", [161, 161])], nextID := 161 } (by decide) rfl

/-! ## C10 — bucket removal tests only the entry count -/

/-- C10: on a bucket record holding exactly one entry, `deleteKeyTag`
deletes the whole record even when the id requested for removal is not
the id of the entry present: the transaction tests only the entry count,
never membership of the requested id. -/
theorem c10_remove_tests_count_only {V : Type} (szT : Nat → List (CodeStr × V) → Nat)
    (s : KVState V) (dp : DataPtr) (t : KVDataTag V) (j : CodeStr) (v : V)
    (hnd : (s.tags.map Prod.fst).Nodup) (hl : alookup s.tags dp.tag = some t)
    (hdata : t.data = [(j, v)]) (_hne : dp.id ≠ j) :
    alookup (deleteKeyTag szT s dp).tags dp.tag = none := by
  have hlen : t.data.length = 1 := by rw [hdata]; rfl
  have hnone : alookup (aerase s.tags dp.tag) dp.tag = none := alookup_aerase_self _ hnd
  unfold deleteKeyTag
  simp only [hl]
  rw [if_pos hlen]
  dsimp only
  rw [hnone, removeBlock_tags]
  exact hnone

theorem c10_remove_tests_count_only_witness :
    alookup (deleteKeyTag szTagRecC
        { headers := [], tags := [(0, { size := 30, data := [([162], 5)] })] }
        { tag := 0, id := [161] }).tags 0 = none :=
  c10_remove_tests_count_only szTagRecC _ _ _ [162] 5 (by decide) rfl rfl (by decide)

/-! ## C7 — corruption is not surfaced by `get` -/

/-- C7 counterexample: a key whose header entry points at bucket 0 while
no `data0` record exists.  `get` returns `undefined`, indistinguishable
from a plain not-found; no corruption error exists on this code path. -/
theorem c7_counterexample :
    (findKeyHeader dangState "k").isSome = true ∧
    alookup dangState.tags 0 = none ∧
    get dangState "k" = none := by
  refine ⟨rfl, rfl, rfl⟩

/-- C7 (amended): when the key's header entry exists but reading the
decoded pointer finds no bucket record or no id entry, `get` silently
returns the absent value — the same result as for a key with no header
entry; the richest iteration surfaces no corruption error. -/
theorem c7_dangling_pointer_absent {V : Type} (s : KVState V) (k : String)
    (n : Nat) (h : KVMHeader) (hfk : findKeyHeader s k = some (n, h))
    (hnone : getData s (expandDP2 ((alookup h.dataptr k).getD [])) = none) :
    get s k = none := by
  unfold get findDataPtr
  rw [hfk]
  exact hnone

theorem c7_dangling_pointer_absent_witness : get dangState "k" = none :=
  c7_dangling_pointer_absent dangState "k" 0
    { blocks := [0], dataptr := [("k", [161, 161])], nextID := 162 } rfl rfl

/-! ## C2 — a reachable capacity violation -/

/-- C2: after the eight `set` calls of `capacityBugOps` (plain ASCII
string values, sizes as measured by `JSON.stringify`), bucket `data0`
holds TWO entries and its measured size is 3918, far above
`MAX_TAG_SIZE = 2000`: the `removeBlock` slip (JS `in` on an array tests
indices, and the failing branch returns `undefined`, deleting `header0`)
erases the block list mid-`set`, so the final insertion lands in the
occupied bucket 0 without any fit check. -/
theorem c2_capacity_violation_run :
    ((alookup (runSetsC emptyState capacityBugOps).1.tags 0).getD emptyTag).data.length = 2 ∧
    MAX_TAG_SIZE ≤ ((alookup (runSetsC emptyState capacityBugOps).1.tags 0).getD emptyTag).size := by
  constructor
  · rfl
  · decide

/-! ## C1 — round trip -/

/-- The common tail of both pointer-writing paths of `set`: after
`updateKeyHdr` assigns `k ↦ compress dp1` in header `hn2` and
`updateKeyTag` upserts the value at `dp1`, `get k` returns the value —
provided no other header holds `k` and `dp1.tag` is small enough for the
codec to be exact. -/
theorem set_tail_roundtrip {V : Type} (szT : Nat → List (CodeStr × V) → Nat)
    (s2 : KVState V) (hn2 : Nat) (k : String) (dp1 : DataPtr) (v : V)
    (hnd2 : (s2.headers.map Prod.fst).Nodup)
    (hbut : NoKeyBut s2 k hn2)
    (h0 : 0 ≤ dp1.tag) (h1 : dp1.tag + 161 < 65535) :
    get (updateKeyTag szT (updateKeyHdr s2 hn2 k dp1) dp1 v) k = some v := by
  have hfk3 : findKeyHeader (updateKeyTag szT (updateKeyHdr s2 hn2 k dp1) dp1 v) k =
      some (hn2, { (alookup s2.headers hn2).getD newhdr with
        dataptr := aupsert ((alookup s2.headers hn2).getD newhdr).dataptr k
          (compressDataPtr dp1) }) := by
    rw [findKeyHeader_eq_of_headers_eq (updateKeyTag_headers szT _ dp1 v)]
    unfold findKeyHeader updateKeyHdr
    refine find?_eq_of_unique (nodup_aupsert _ _ hnd2) (mem_aupsert_self _ _ _) ?_ ?_
    · simp [alookup_aupsert_self]
    · intro x hx hxn
      rcases mem_aupsert hx with hx | hx
      · simp [hbut x hx hxn]
      · exfalso
        apply hxn
        rw [hx]
  unfold get findDataPtr
  rw [hfk3]
  simp only [alookup_aupsert_self, Option.getD_some, expand_compress h0 h1]
  exact getData_updateKeyTag szT _ dp1 v

/-- C1: for every key and storable value, `set k v` then `get k` (no
interleaved operations) returns the value.  Hypotheses: the state is
JS-faithful (no duplicate header names), the active bucket numbers leave
room for one more single-code-unit bucket index (`≤ 65372`), and `k`
lives in at most one header.  This holds for any size estimator. -/
theorem c1_round_trip {V : Type}
    (szE : CodeStr → Option V → Nat) (szT : Nat → List (CodeStr × V) → Nat)
    (szH : KVMHeader → Nat) (szHE : String → DataPtr → Nat)
    (s : KVState V) (k : String) (v : V)
    (hnd : (s.headers.map Prod.fst).Nodup)
    (hblk : ∀ b ∈ hdr0blocks s, 0 ≤ b ∧ b ≤ 65372)
    (huniq : ∀ x ∈ s.headers, ∀ y ∈ s.headers,
      (alookup x.2.dataptr k).isSome = true →
      (alookup y.2.dataptr k).isSome = true → x = y) :
    get (set szE szT szH szHE s k v) k = some v := by
  unfold set setA
  rcases hfk : findKeyHeader s k with _ | ⟨hn, hdr⟩
  · -- fresh key
    simp only [findDataPtr, hfk]
    have hnk : NoKey s k := by
      intro x hx
      have := List.find?_eq_none.1 hfk x hx
      simpa using this
    have hb2 : ∀ b ∈ hdr0blocks (incrementID s).2, 0 ≤ b ∧ b ≤ 65372 :=
      fun b hb => hblk b (hdr0blocks_incrementID s b hb)
    have hrange := @findEmptyTag_range V (incrementID s).2
      (szE (num2str (incrementID s).1) (some v)) hb2
    refine set_tail_roundtrip szT _ _ k _ v ?_ ?_ ?_ ?_
    · exact nodupH_findEmptyTag (nodupH_incrementID hnd)
    · exact noKeyBut_findEmptyTag (noKeyBut_incrementID (fun x hx _ => hnk x hx))
    · exact hrange.1
    · dsimp only
      omega
  · -- existing key
    simp only [findDataPtr, hfk]
    have hmem : (hn, hdr) ∈ s.headers := List.mem_of_find?_eq_some hfk
    have hpred : (alookup hdr.dataptr k).isSome = true := by
      simpa using List.find?_some hfk
    by_cases hfit :
        itemUpdateWillFit szE s (expandDP2 ((alookup hdr.dataptr k).getD [])) v = true
    · rw [if_pos hfit]
      have hfk2 : findKeyHeader
          (updateKeyTag szT s (expandDP2 ((alookup hdr.dataptr k).getD [])) v) k =
          some (hn, hdr) := by
        rw [findKeyHeader_eq_of_headers_eq (updateKeyTag_headers szT _ _ v)]
        exact hfk
      unfold get findDataPtr
      rw [hfk2]
      exact getData_updateKeyTag szT _ _ v
    · rw [if_neg hfit]
      have hbutS : NoKeyBut s k hn := by
        intro x hx hxn
        cases hsome : alookup x.2.dataptr k with
        | none => rfl
        | some d =>
          exfalso
          apply hxn
          have := huniq x hx (hn, hdr) hmem (by simp [hsome]) hpred
          rw [this]
      have hb2 : ∀ b ∈ hdr0blocks
          (deleteKeyTag szT s (expandDP2 ((alookup hdr.dataptr k).getD []))),
          0 ≤ b ∧ b ≤ 65372 :=
        fun b hb => hblk b (hdr0blocks_deleteKeyTag hnd b hb)
      have hrange := @findEmptyTag_range V
        (deleteKeyTag szT s (expandDP2 ((alookup hdr.dataptr k).getD [])))
        (szE (expandDP2 ((alookup hdr.dataptr k).getD [])).id (some v)) hb2
      refine set_tail_roundtrip szT _ _ k _ v ?_ ?_ ?_ ?_
      · exact nodupH_findEmptyTag (nodupH_deleteKeyTag hnd)
      · exact noKeyBut_findEmptyTag (noKeyBut_deleteKeyTag hbutS)
      · exact hrange.1
      · dsimp only
        omega

theorem c1_round_trip_witness :
    get (set szEntryC szTagRecC szHdrC szHdrEntryC emptyState "a" 5) "a" = some 5 :=
  c1_round_trip szEntryC szTagRecC szHdrC szHdrEntryC emptyState "a" 5
    (by decide) (by decide) (by decide)

/-! ## C3 — deletion -/

/-- C3: for a stored key `k` (its header found by the scan, `k` in no
other header, JS-faithful duplicate-free maps), `delete k` makes a
subsequent `get k` return absent, and when `k`'s bucket record held
exactly one entry, that bucket record no longer exists in the substrate
(the removal transaction yields absent rather than an empty map). -/
theorem c3_delete_removes {V : Type} (szT : Nat → List (CodeStr × V) → Nat)
    (s : KVState V) (k : String) (hn : Nat) (hdr : KVMHeader)
    (hnd : (s.headers.map Prod.fst).Nodup)
    (htnd : (s.tags.map Prod.fst).Nodup)
    (hdnd : (hdr.dataptr.map Prod.fst).Nodup)
    (hfk : findKeyHeader s k = some (hn, hdr))
    (hother : ∀ x ∈ s.headers, x.1 ≠ hn → alookup x.2.dataptr k = none) :
    get (delete szT s k) k = none ∧
    (∀ t, alookup s.tags (expandDP2 ((alookup hdr.dataptr k).getD [])).tag = some t →
      t.data.length = 1 →
      alookup (delete szT s k).tags
        (expandDP2 ((alookup hdr.dataptr k).getD [])).tag = none) := by
  have hdel : delete szT s k =
      deleteKeyTag szT (deleteKeyHdr s hn k)
        (expandDP2 ((alookup hdr.dataptr k).getD [])) := by
    unfold delete findDataPtr
    rw [hfk]
  have hmem : (hn, hdr) ∈ s.headers := List.mem_of_find?_eq_some hfk
  have hlk : alookup s.headers hn = some hdr := alookup_eq_some_of_mem hnd hmem
  constructor
  · have hA : NoKey (deleteKeyHdr s hn k) k := by
      intro x hx
      unfold deleteKeyHdr at hx
      simp only [hlk] at hx
      by_cases hc : hn ≠ 0 ∧ hdr.dataptr.length = 1
      · rw [if_pos hc] at hx
        simp only at hx
        have hxs := mem_aerase hx
        by_cases hxn : x.1 = hn
        · exfalso
          have hmm2 : x.1 ∈ (aerase s.headers hn).map Prod.fst :=
            List.mem_map_of_mem Prod.fst hx
          rw [hxn] at hmm2
          have hsome := alookup_isSome_of_mem_keys hmm2
          rw [alookup_aerase_self _ hnd] at hsome
          simp at hsome
        · exact hother x hxs hxn
      · rw [if_neg hc] at hx
        simp only at hx
        rcases mem_aupsert_nodup hnd hx with ⟨hxs, hxn⟩ | hxe
        · exact hother x hxs hxn
        · rw [hxe]
          exact alookup_aerase_self _ hdnd
    have hB : NoKey (delete szT s k) k := by
      rw [hdel]
      exact deleteKeyTag_nokey hA
    have hfkF : findKeyHeader (delete szT s k) k = none := by
      unfold findKeyHeader
      rw [List.find?_eq_none]
      intro x hx
      simp [hB x hx]
    unfold get findDataPtr
    rw [hfkF]
  · intro t hlook hlen1
    have herase : alookup (aerase s.tags
        (expandDP2 ((alookup hdr.dataptr k).getD [])).tag)
        (expandDP2 ((alookup hdr.dataptr k).getD [])).tag = none :=
      alookup_aerase_self _ htnd
    rw [hdel, deleteKeyTag_eq]
    simp only [deleteKeyHdr_tags, hlook, if_pos hlen1, herase, removeBlock_tags]

theorem c3_delete_removes_witness :
    get (delete szTagRecC oneKeyState "k") "k" = none ∧
    alookup (delete szTagRecC oneKeyState "k").tags 0 = none := by
  have h := c3_delete_removes szTagRecC oneKeyState "k" 0
      { blocks := [0], dataptr := [("k", [161, 161])], nextID := 162 }
      (by decide) (by decide) (by decide) rfl (by decide)
  exact ⟨h.1, h.2 { size := 30, data := [([161], 7)] } rfl rfl⟩

/-! ## C5 — a reachable duplicate id allocation -/

/-- C5: the nine `set` calls of `idBugOps` introduce five distinct new
keys, but the counter values consumed are `[161, 162, 163, 164, 161]`:
deleting `header0` (the `removeBlock` slip above) resets `nextID`, and
the fifth fresh key is allocated the same id as the first.  The allocated
id strings are therefore not pairwise distinct. -/
theorem c5_duplicate_id_run :
    (runSetsC emptyState idBugOps).2 = [161, 162, 163, 164, 161] ∧
    ¬ ((runSetsC emptyState idBugOps).2.map num2str).Nodup := by
  constructor
  · rfl
  · decide

end KVM

